import Mathlib

/-!
# Verification of the FELT Trial Overlap Stability Engine and marking UI

Shallow embedding of the FELT repository: the Trial Overlap Stability Engine
(spec §2–§4; the backend implementation `main.py` is not part of the provided
sources, so the engine is modelled from the spec) and the parts of the React
frontend (`frontend/src/App.tsx`, `ProcessFeedbackPage`) that the claims
mention.
-/

namespace Felt

/-- A grid cell coordinate `(row, col)` (spec §3, Glossary). -/
abbrev Cell := Nat × Nat

/-- Modelled from the spec: the Log Record data model (spec §3); the backend
parser producing it is not in the provided sources.  `cells` is a set of
grid-cell coordinates with set semantics (duplicates collapse). -/
structure LogRecord where
  log_id : String
  filename : String
  image_path : String
  coarseness : Nat
  cells : Finset Cell
deriving DecidableEq

/-- Modelled from the spec: the Result record of the engine
(spec §3 and the `ProcessResult` type in `ProcessFeedbackPage`); areas are
in cell-count units (unit cell area 1) and the score is an exact rational. -/
structure ProcessResult where
  status : String
  stability_score : ℚ
  stable_overlap_area : Nat
  best_day_area : Nat
  max_area_file : String
  best_combination : List String
deriving DecidableEq

/-- Modelled from the spec: validity of an Analysis Batch (spec §3, §4.1):
at least one log, `1 ≤ k ≤ n`, all logs agree on `image_path` and
`coarseness`, and every coordinate lies in `[0, coarseness)`. -/
def validBatch (logs : List LogRecord) (k : Nat) : Prop :=
  1 ≤ logs.length ∧ 1 ≤ k ∧ k ≤ logs.length ∧
  (∀ l ∈ logs, ∀ l' ∈ logs, l.image_path = l'.image_path ∧ l.coarseness = l'.coarseness) ∧
  (∀ l ∈ logs, ∀ c ∈ l.cells, c.1 < l.coarseness ∧ c.2 < l.coarseness)

instance validBatch.decidable (logs : List LogRecord) (k : Nat) :
    Decidable (validBatch logs k) := by
  unfold validBatch; exact inferInstance

/-- Modelled from the spec: `area_of(log) = |log.cells|` in unit cell areas
(spec §4.3). -/
def area_of (l : LogRecord) : Nat := l.cells.card

/-- Modelled from the spec: the cell set common to every log of a (nonempty)
subset (spec §4.3); the intersection of the empty subset is never requested
and is conventionally the empty set here. -/
def overlap_cells : List LogRecord → Finset Cell
  | [] => ∅
  | [l] => l.cells
  | l :: l' :: ls => l.cells ∩ overlap_cells (l' :: ls)

/-- Modelled from the spec: `overlap_area(subset) = |∩ cells|` (spec §4.3). -/
def overlap_area (s : List LogRecord) : Nat := (overlap_cells s).card

/-- Modelled from the spec: the Combination Enumerator (spec §4.2): all
size-`k` subsets of the input list, in lexicographic order over increasing
input-list indices. -/
def combinations {α : Type} : Nat → List α → List (List α)
  | 0, _ => [[]]
  | _ + 1, [] => []
  | k + 1, x :: xs => (combinations k xs).map (fun t => x :: t) ++ combinations (k + 1) xs

/-- Modelled from the spec: the first-on-tie maximum scan shared by steps 1
and 3 of the Stability Selector (spec §4.4): the current best is replaced
only on a strict improvement of the measure `f`. -/
def firstMax {α : Type} (f : α → Nat) (x : α) (xs : List α) : α :=
  xs.foldl (fun best y => if f best < f y then y else best) x

/-- Modelled from the spec: the Stability Selector / whole engine
(spec §4.4): validate, enumerate combinations, pick the first maximal log and
the first maximal-overlap combination, and assemble the Result; when
`best_day_area = 0` the score is defined as `0` with an empty combination and
the division is never performed. -/
def processFeedback (logs : List LogRecord) (k : Nat) : Except String ProcessResult :=
  match logs with
  | [] => .error "validation error: empty selection"
  | l0 :: rest =>
    if validBatch (l0 :: rest) k then
      match combinations k (l0 :: rest) with
      | [] => .error "validation error: no combinations"
      | c0 :: cs =>
        if area_of (firstMax area_of l0 rest) = 0 then
          .ok ⟨"ok", 0, overlap_area (firstMax overlap_area c0 cs),
               area_of (firstMax area_of l0 rest), (firstMax area_of l0 rest).filename, []⟩
        else
          .ok ⟨"ok",
               (overlap_area (firstMax overlap_area c0 cs) : ℚ) /
                 (area_of (firstMax area_of l0 rest) : ℚ),
               overlap_area (firstMax overlap_area c0 cs),
               area_of (firstMax area_of l0 rest), (firstMax area_of l0 rest).filename,
               (firstMax overlap_area c0 cs).map (fun l => l.filename)⟩
    else .error "validation error"

/-- `true` exactly when the engine rejected the request. -/
def isErrorResult (e : Except String ProcessResult) : Bool :=
  match e with
  | .error _ => true
  | .ok _ => false

/-! ## Frontend embedding (code under `src/`) -/

/-- The props of the `FeedbackLocator` component that matter to the claims:
`imageSrc` and `coarseness` (`frontend/src/App.tsx`). -/
structure FeedbackLocatorProps where
  imageSrc : String
  coarseness : Nat
deriving DecidableEq

/-- Embedding of the render logic of `MarkSensationsPage`
(`frontend/src/App.tsx`): the `FeedbackLocator` is rendered exactly when
`customSvg` is set, and then always with `coarseness={80}`. -/
def markSensationsLocator (customSvg : Option String) : Option FeedbackLocatorProps :=
  match customSvg with
  | none => none
  | some svg => some ⟨svg, 80⟩

/-- Embedding of the render logic of the single-page `App` variant
(the unnamed frontend source): identical branching, `coarseness={80}`. -/
def appLocator (customSvg : Option String) : Option FeedbackLocatorProps :=
  match customSvg with
  | none => none
  | some svg => some ⟨svg, 80⟩

/-- A JavaScript string, modelled as its list of characters. -/
abbrev JSStr := List Char

/-- The separator character class `[/\\]` of `exportFeedbackLog`'s
`rawName.split(/[/\\]/)` (`frontend/src/App.tsx`). -/
def isSep (c : Char) : Bool := c = '/' || c = '\\'

/-- Embedding of JavaScript `String.prototype.split` on the character class
`[/\\]`: empty segments are kept, and splitting the empty string yields one
empty segment. -/
def splitSep : JSStr → List JSStr
  | [] => [[]]
  | c :: cs =>
    if isSep c then [] :: splitSep cs
    else
      match splitSep cs with
      | [] => [[c]]
      | s :: ss => (c :: s) :: ss

/-- Embedding of `rawName.split(/[/\\]/).pop() ?? rawName`
(`frontend/src/App.tsx`): the last segment of the split, falling back to the
raw name when `pop()` yields `undefined`. -/
def baseName (rawName : JSStr) : JSStr :=
  ((splitSep rawName).getLast?).getD rawName

/-- The parts of the payload built by `exportFeedbackLog` that the claims
mention (`frontend/src/App.tsx`): top-level `filename` and the
`feedbackLocation.image_path` field. -/
structure FeedbackPayload where
  log_id : JSStr
  filename : JSStr
  image_path : JSStr
deriving DecidableEq

/-- Embedding of the payload construction in `exportFeedbackLog`
(`frontend/src/App.tsx`): `rawName = selectedImageName ?? customSvg ?? ''`,
`image_path = baseName`, and both `filename` and
`feedbackLocation.image_path` are set to it. -/
def exportFeedbackLog (logId : JSStr) (selectedImageName customSvg : Option JSStr) :
    FeedbackPayload :=
  ⟨logId, baseName (selectedImageName.getD (customSvg.getD [])),
   baseName (selectedImageName.getD (customSvg.getD []))⟩

/-! ## Example batch from spec §8 -/

/-- First example log of spec §8: cells `{(0,0),(0,1),(1,1)}`. -/
def exLog1 : LogRecord := ⟨"S1", "log1.json", "body.svg", 4, {(0, 0), (0, 1), (1, 1)}⟩

/-- Second example log of spec §8: cells `{(0,0),(1,1)}`. -/
def exLog2 : LogRecord := ⟨"S2", "log2.json", "body.svg", 4, {(0, 0), (1, 1)}⟩

/-- Third example log of spec §8: cells `{(0,0),(0,1)}`. -/
def exLog3 : LogRecord := ⟨"S3", "log3.json", "body.svg", 4, {(0, 0), (0, 1)}⟩

/-- The three-log example batch of spec §8. -/
def exLogs : List LogRecord := [exLog1, exLog2, exLog3]

/-- The Result of the spec §8 example at `k = 2`. -/
def exResult : ProcessResult := ⟨"ok", 2 / 3, 2, 3, "log1.json", ["log1.json", "log2.json"]⟩

/-- The Result of the spec §8 example batch at `k = 1`. -/
def exResult1 : ProcessResult := ⟨"ok", 1, 3, 3, "log1.json", ["log1.json"]⟩

/-- A valid single-log batch whose only log marked no cells. -/
def emptyLog : LogRecord := ⟨"S0", "empty.json", "body.svg", 4, ∅⟩

/-- The Result for the all-empty single-log batch at `k = 1`. -/
def emptyResult : ProcessResult := ⟨"ok", 0, 0, 0, "empty.json", []⟩

/-! ## Properties of the Combination Enumerator -/

/-- Membership in `combinations k xs` is exactly being a length-`k` sublist
(subsequence in input order) of `xs`. -/
theorem mem_combinations {α : Type} {k : Nat} {xs ys : List α} :
    ys ∈ combinations k xs ↔ ys.Sublist xs ∧ ys.length = k := by
  induction xs generalizing k ys with
  | nil =>
    cases k with
    | zero =>
      simp only [combinations, List.mem_singleton]
      constructor
      · rintro rfl; exact ⟨List.Sublist.refl _, rfl⟩
      · rintro ⟨hs, _⟩; exact List.sublist_nil.mp hs
    | succ k =>
      simp only [combinations, List.not_mem_nil, false_iff, not_and]
      intro hs
      rw [List.sublist_nil.mp hs]
      simp
  | cons x xs ih =>
    cases k with
    | zero =>
      simp only [combinations, List.mem_singleton]
      constructor
      · rintro rfl; exact ⟨List.nil_sublist _, rfl⟩
      · rintro ⟨_, hl⟩; exact List.length_eq_zero.mp hl
    | succ k =>
      simp only [combinations, List.mem_append, List.mem_map]
      constructor
      · rintro (⟨t, ht, rfl⟩ | h)
        · obtain ⟨hs, hl⟩ := ih.mp ht
          exact ⟨hs.cons₂ x, by simp [hl]⟩
        · obtain ⟨hs, hl⟩ := ih.mp h
          exact ⟨hs.cons x, hl⟩
      · rintro ⟨hs, hl⟩
        rcases List.sublist_cons_iff.mp hs with h | ⟨r, rfl, hr⟩
        · exact Or.inr (ih.mpr ⟨h, hl⟩)
        · exact Or.inl ⟨r, ih.mpr ⟨hr, by simpa using hl⟩, rfl⟩

/-- The enumerator produces exactly `C(n, k)` subsets. -/
theorem length_combinations {α : Type} {k : Nat} {xs : List α} :
    (combinations k xs).length = xs.length.choose k := by
  induction xs generalizing k with
  | nil => cases k <;> simp [combinations]
  | cons x xs ih =>
    cases k with
    | zero => simp [combinations]
    | succ k => simp [combinations, ih, Nat.choose_succ_succ]

/-- On a duplicate-free input the enumerator never repeats a subset. -/
theorem nodup_combinations {α : Type} {k : Nat} {xs : List α} (h : xs.Nodup) :
    (combinations k xs).Nodup := by
  induction xs generalizing k with
  | nil => cases k <;> simp [combinations]
  | cons x xs ih =>
    rcases List.nodup_cons.mp h with ⟨hx, hxs⟩
    cases k with
    | zero => simp [combinations]
    | succ k =>
      simp only [combinations]
      refine List.Nodup.append ?_ (ih hxs) ?_
      · exact (ih hxs).map (fun a b hab => by injection hab)
      · intro a ha hb
        obtain ⟨t, _, rfl⟩ := List.mem_map.mp ha
        have hs := (mem_combinations.mp hb).1
        exact hx (hs.subset (List.mem_cons_self x t))

/-- Enumeration commutes with mapping a function over the input list. -/
theorem combinations_map {α β : Type} (f : α → β) {k : Nat} {xs : List α} :
    combinations k (xs.map f) = (combinations k xs).map (List.map f) := by
  induction xs generalizing k with
  | nil => cases k <;> simp [combinations]
  | cons x xs ih =>
    cases k with
    | zero => simp [combinations]
    | succ k => simp [combinations, ih, List.map_map, Function.comp_def]

/-- There are no subsets of size larger than the input. -/
theorem combinations_eq_nil {α : Type} {k : Nat} {xs : List α} (h : xs.length < k) :
    combinations k xs = [] := by
  induction xs generalizing k with
  | nil =>
    cases k with
    | zero => omega
    | succ k => rfl
  | cons x xs ih =>
    cases k with
    | zero => omega
    | succ k =>
      have h1 : combinations k xs = [] := ih (by simpa using h)
      have h2 : combinations (k + 1) xs = [] := ih (by simp at h; omega)
      simp [combinations, h1, h2]

/-- When `k = n` the single subset produced is the whole batch. -/
theorem combinations_length_self {α : Type} (xs : List α) :
    combinations xs.length xs = [xs] := by
  induction xs with
  | nil => rfl
  | cons x xs ih =>
    simp [combinations, ih, combinations_eq_nil (Nat.lt_succ_self _)]

/-- When `k = 1` the subsets are the singletons, one per log, in input order. -/
theorem combinations_one {α : Type} (xs : List α) :
    combinations 1 xs = xs.map (fun a => [a]) := by
  induction xs with
  | nil => rfl
  | cons x xs ih => simp [combinations, ih]

/-- Over a strictly increasing input (such as `0..n-1`), the enumeration is
strictly lexicographically sorted. -/
theorem pairwise_lex_combinations {k : Nat} {xs : List Nat}
    (h : xs.Pairwise (· < ·)) :
    (combinations k xs).Pairwise (List.Lex (· < ·)) := by
  induction xs generalizing k with
  | nil => cases k <;> simp [combinations]
  | cons x xs ih =>
    rcases List.pairwise_cons.mp h with ⟨hx, hxs⟩
    cases k with
    | zero => simp [combinations]
    | succ k =>
      simp only [combinations]
      rw [List.pairwise_append]
      refine ⟨(ih hxs).map _ (fun a b hab => List.Lex.cons hab), ih hxs, ?_⟩
      intro a ha b hb
      obtain ⟨t, _, rfl⟩ := List.mem_map.mp ha
      have hs := (mem_combinations.mp hb).1
      have hl := (mem_combinations.mp hb).2
      cases b with
      | nil => simp at hl
      | cons y ys =>
        exact List.Lex.rel (hx y (hs.subset (List.mem_cons_self y ys)))

/-- Reading a list back from its indices. -/
theorem map_getD_range {α : Type} (d : α) (xs : List α) :
    (List.range xs.length).map (fun i => xs.getD i d) = xs := by
  induction xs with
  | nil => rfl
  | cons x xs ih =>
    rw [List.length_cons, List.range_succ_eq_map]
    simpa [List.map_map, Function.comp_def] using ih

/-- For `1 ≤ k ≤ n` the enumeration is nonempty. -/
theorem combinations_ne_nil {α : Type} {k : Nat} {xs : List α}
    (h : k ≤ xs.length) : combinations k xs ≠ [] := by
  intro hnil
  have hlen := @length_combinations α k xs
  rw [hnil] at hlen
  have hpos := Nat.choose_pos h
  simp at hlen
  omega

/-! ## Properties of the first-on-tie maximum scan -/

/-- The scan result splits the list into a strict prefix of strictly smaller
measures, the winner, and a tail; the winner's measure dominates the whole
list.  This is exactly the "replace only on strict improvement" policy. -/
theorem firstMax_spec {α : Type} (f : α → Nat) (x : α) (xs : List α) :
    ∃ pre post, x :: xs = pre ++ firstMax f x xs :: post ∧
      (∀ y ∈ pre, f y < f (firstMax f x xs)) ∧
      (∀ y ∈ x :: xs, f y ≤ f (firstMax f x xs)) := by
  induction xs generalizing x with
  | nil =>
    refine ⟨[], [], rfl, by simp, ?_⟩
    intro y hy
    rw [List.mem_singleton] at hy
    subst hy
    exact Nat.le_refl _
  | cons y ys ih =>
    have hfold : firstMax f x (y :: ys) = firstMax f (if f x < f y then y else x) ys := rfl
    by_cases hxy : f x < f y
    · rw [hfold, if_pos hxy]
      obtain ⟨pre, post, heq, hpre, hall⟩ := ih y
      refine ⟨x :: pre, post, by rw [List.cons_append, ← heq], ?_, ?_⟩
      · intro z hz
        rcases List.mem_cons.mp hz with rfl | hz
        · exact Nat.lt_of_lt_of_le hxy (hall y (List.mem_cons_self y ys))
        · exact hpre z hz
      · intro z hz
        rcases List.mem_cons.mp hz with rfl | hz
        · exact Nat.le_of_lt (Nat.lt_of_lt_of_le hxy (hall y (List.mem_cons_self y ys)))
        · exact hall z hz
    · rw [hfold, if_neg hxy]
      obtain ⟨pre, post, heq, hpre, hall⟩ := ih x
      cases pre with
      | nil =>
        rw [List.nil_append] at heq
        injection heq with h1 h2
        refine ⟨[], y :: post, ?_, by simp, ?_⟩
        · rw [List.nil_append, ← h1, h2]
        · intro z hz
          rcases List.mem_cons.mp hz with rfl | hz
          · exact hall z (List.mem_cons_self _ _)
          · rcases List.mem_cons.mp hz with rfl | hz
            · exact Nat.le_trans (Nat.le_of_not_lt hxy) (hall x (List.mem_cons_self _ _))
            · exact hall z (List.mem_cons_of_mem _ hz)
      | cons p pre' =>
        rw [List.cons_append] at heq
        injection heq with h1 h2
        refine ⟨x :: y :: pre', post, ?_, ?_, ?_⟩
        · simp only [List.cons_append]
          rw [← h2]
        · intro z hz
          rcases List.mem_cons.mp hz with rfl | hz
          · exact h1 ▸ hpre p (List.mem_cons_self _ _)
          · rcases List.mem_cons.mp hz with rfl | hz
            · exact Nat.lt_of_le_of_lt (Nat.le_of_not_lt hxy)
                (h1 ▸ hpre p (List.mem_cons_self _ _))
            · exact hpre z (List.mem_cons_of_mem _ hz)
        · intro z hz
          rcases List.mem_cons.mp hz with rfl | hz
          · exact hall z (List.mem_cons_self _ _)
          · rcases List.mem_cons.mp hz with rfl | hz
            · exact Nat.le_trans (Nat.le_of_not_lt hxy) (hall x (List.mem_cons_self _ _))
            · exact hall z (List.mem_cons_of_mem _ hz)

/-- The winner of the scan is an element of the scanned list. -/
theorem firstMax_mem {α : Type} (f : α → Nat) (x : α) (xs : List α) :
    firstMax f x xs ∈ x :: xs := by
  obtain ⟨pre, post, heq, -, -⟩ := firstMax_spec f x xs
  rw [heq]
  exact List.mem_append.mpr (Or.inr (List.mem_cons_self _ _))

/-- Scanning a mapped list is the image of scanning the original list, when
the measures agree along the map. -/
theorem firstMax_map {α β : Type} (g : α → β) (f : β → Nat) (f' : α → Nat)
    (hfg : ∀ a, f (g a) = f' a) (x : α) (xs : List α) :
    firstMax f (g x) (xs.map g) = g (firstMax f' x xs) := by
  induction xs generalizing x with
  | nil => rfl
  | cons y ys ih =>
    have h1 : firstMax f (g x) (g y :: ys.map g)
        = firstMax f (if f (g x) < f (g y) then g y else g x) (ys.map g) := rfl
    have h2 : firstMax f' x (y :: ys) = firstMax f' (if f' x < f' y then y else x) ys := rfl
    rw [List.map_cons, h1, h2, hfg, hfg]
    by_cases hxy : f' x < f' y
    · rw [if_pos hxy, if_pos hxy, ih]
    · rw [if_neg hxy, if_neg hxy, ih]

/-! ## Properties of the Overlap Evaluator -/

/-- A cell is in the overlap of a nonempty subset iff every member marked it. -/
theorem mem_overlap_cells (l : LogRecord) (ls : List LogRecord) (c : Cell) :
    c ∈ overlap_cells (l :: ls) ↔ ∀ m ∈ l :: ls, c ∈ m.cells := by
  induction ls generalizing l with
  | nil => simp [overlap_cells]
  | cons l' ls' ih =>
    rw [overlap_cells, Finset.mem_inter, ih l']
    simp only [List.forall_mem_cons]

/-- Intersecting over more logs cannot grow the overlap: the overlap of a
superlist is contained in the overlap of any nonempty sublist. -/
theorem overlap_cells_anti {s1 s2 : List LogRecord} (h1 : s1 ≠ [])
    (hsub : s1.Sublist s2) : overlap_cells s2 ⊆ overlap_cells s1 := by
  obtain ⟨l, ls, rfl⟩ := List.exists_cons_of_ne_nil h1
  have h2 : s2 ≠ [] := by
    intro h
    rw [h, List.sublist_nil] at hsub
    exact List.cons_ne_nil _ _ hsub
  obtain ⟨l2, ls2, rfl⟩ := List.exists_cons_of_ne_nil h2
  intro c hc
  rw [mem_overlap_cells] at hc ⊢
  intro m hm
  exact hc m (hsub.subset hm)

/-- The overlap of a subset is contained in its first member's cells. -/
theorem overlap_cells_subset_head (l : LogRecord) (ls : List LogRecord) :
    overlap_cells (l :: ls) ⊆ l.cells := by
  cases ls with
  | nil => simp [overlap_cells]
  | cons l' ls' =>
    rw [overlap_cells]
    exact Finset.inter_subset_left

/-- The overlap area of a singleton subset is that log's own area (spec §4.3). -/
theorem overlap_area_singleton (l : LogRecord) : overlap_area [l] = area_of l := rfl

/-! ## Shape of a successful engine run -/

/-- Every `ok` result comes from a valid nonempty batch with a nonempty
enumeration, and its fields are exactly the first-maximal log's and the
first-maximal combination's data, with the `best_day_area = 0` guard. -/
theorem processFeedback_ok_fields {logs : List LogRecord} {k : Nat}
    {r : ProcessResult} (e : processFeedback logs k = .ok r) :
    ∃ l0 rest c0 cs, logs = l0 :: rest ∧ validBatch logs k ∧
      combinations k logs = c0 :: cs ∧
      r.status = "ok" ∧
      r.best_day_area = area_of (firstMax area_of l0 rest) ∧
      r.max_area_file = (firstMax area_of l0 rest).filename ∧
      r.stable_overlap_area = overlap_area (firstMax overlap_area c0 cs) ∧
      r.stability_score =
        (if r.best_day_area = 0 then 0
         else (r.stable_overlap_area : ℚ) / (r.best_day_area : ℚ)) ∧
      r.best_combination =
        (if r.best_day_area = 0 then []
         else (firstMax overlap_area c0 cs).map (fun l => l.filename)) := by
  match logs with
  | [] => simp [processFeedback] at e
  | l0 :: rest =>
    rw [processFeedback.eq_def] at e
    simp only at e
    split at e
    case isFalse hv => exact absurd e (by simp)
    case isTrue hv =>
      split at e
      case h_1 heq => exact absurd e (by simp)
      case h_2 c0 cs heq =>
        split at e
        case isTrue hz =>
          injection e with h
          subst h
          exact ⟨l0, rest, c0, cs, rfl, hv, heq, rfl, rfl, rfl, rfl,
            by simp [hz], by simp [hz]⟩
        case isFalse hz =>
          injection e with h
          subst h
          exact ⟨l0, rest, c0, cs, rfl, hv, heq, rfl, rfl, rfl, rfl,
            by simp [hz], by simp [hz]⟩

/-- A valid batch always produces an `ok` result. -/
theorem processFeedback_ok_exists {l0 : LogRecord} {rest : List LogRecord}
    {k : Nat} (h : validBatch (l0 :: rest) k) :
    ∃ r, processFeedback (l0 :: rest) k = .ok r := by
  have hk : k ≤ (l0 :: rest).length := h.2.2.1
  obtain ⟨c0, cs, hcc⟩ := List.exists_cons_of_ne_nil (combinations_ne_nil hk)
  rw [processFeedback.eq_def]
  simp only [if_pos h, hcc]
  by_cases hz : area_of (firstMax area_of l0 rest) = 0
  · exact ⟨_, by rw [if_pos hz]⟩
  · exact ⟨_, by rw [if_neg hz]⟩

/-- A valid batch is nonempty. -/
theorem validBatch_cons {logs : List LogRecord} {k : Nat} (h : validBatch logs k) :
    ∃ l0 rest, logs = l0 :: rest := by
  cases logs with
  | nil =>
    have h1 := h.1
    simp at h1
  | cons a b => exact ⟨a, b, rfl⟩

/-- Evaluation of the spec §8 example batch at `k = 2`. -/
theorem example_eval_k2 : processFeedback exLogs 2 = .ok exResult := by
  have h : ((2 : Nat) : ℚ) / ((3 : Nat) : ℚ) = 2 / 3 := by norm_num
  show Except.ok (⟨"ok", ((2 : Nat) : ℚ) / ((3 : Nat) : ℚ), 2, 3, "log1.json",
    ["log1.json", "log2.json"]⟩ : ProcessResult) = _
  rw [h]; rfl

/-- Evaluation of the spec §8 example batch at `k = 1`. -/
theorem example_eval_k1 : processFeedback exLogs 1 = .ok exResult1 := by
  have h : ((3 : Nat) : ℚ) / ((3 : Nat) : ℚ) = 1 := by norm_num
  show Except.ok (⟨"ok", ((3 : Nat) : ℚ) / ((3 : Nat) : ℚ), 3, 3, "log1.json",
    ["log1.json"]⟩ : ProcessResult) = _
  rw [h]; rfl

/-! ## Claims -/

/-- C1: whenever the engine returns a result, the winning combination is the
first subset in enumeration order among those attaining the maximal overlap
area — every strictly earlier subset has strictly smaller overlap, so the
current best is replaced only on a strict improvement; and on the spec §8
three-log example with `k = 2` the engine returns `best_combination` =
filenames of logs 1 and 2, `stable_overlap_area = 2`,
`stability_score = 2/3`. -/
theorem C1_selector_first_max {logs : List LogRecord} {k : Nat}
    {r : ProcessResult} (e : processFeedback logs k = .ok r) :
    (∃ pre best post, combinations k logs = pre ++ best :: post ∧
      r.stable_overlap_area = overlap_area best ∧
      (r.best_day_area ≠ 0 → r.best_combination = best.map (fun l => l.filename)) ∧
      (∀ s ∈ pre, overlap_area s < overlap_area best) ∧
      (∀ s ∈ combinations k logs, overlap_area s ≤ overlap_area best)) ∧
    processFeedback exLogs 2 = .ok exResult := by
  refine ⟨?_, example_eval_k2⟩
  obtain ⟨l0, rest, c0, cs, hlogs, hv, hcc, hst, hbda, hmax, hsoa, hsc, hbc⟩ :=
    processFeedback_ok_fields e
  obtain ⟨pre, post, heq, hpre, hall⟩ := firstMax_spec overlap_area c0 cs
  refine ⟨pre, firstMax overlap_area c0 cs, post, by rw [hcc, heq], hsoa, ?_, hpre, ?_⟩
  · intro hz
    rw [hbc, if_neg hz]
  · intro s hs
    rw [hcc] at hs
    exact hall s hs

/-- The full contract of the Combination Enumerator (spec §4.2) for a batch
`logs` of size `n` and subset size `k`: every size-`k` subset (sublist in
input order) appears, exactly once on duplicate-free input, there are
`C(n, k)` of them, the enumeration is the image of the index enumeration
`i1 < i2 < ... < ik` over `0..n-1`, which is strictly lexicographically
sorted; `k = n` yields exactly the whole batch, `k = 1` yields the `n`
singletons in input order. -/
def enumeratorContract (logs : List LogRecord) (n k : Nat) (dflt : LogRecord) : Prop :=
  (∀ ys, ys ∈ combinations k logs ↔ ys.Sublist logs ∧ ys.length = k) ∧
  (combinations k logs).length = n.choose k ∧
  (logs.Nodup → (combinations k logs).Nodup) ∧
  combinations k logs
    = (combinations k (List.range n)).map (fun idxs => idxs.map (fun i => logs.getD i dflt)) ∧
  (combinations k (List.range n)).Pairwise (List.Lex (· < ·)) ∧
  combinations n logs = [logs] ∧
  combinations 1 logs = logs.map (fun l => [l]) ∧
  (combinations 1 logs).length = n

/-- C2: for every `n` logs and every `k` with `1 ≤ k ≤ n`, the Combination
Enumerator produces every size-`k` subset exactly once, in lexicographic
order over increasing input-list indices; `k = n` yields exactly the whole
batch and `k = 1` yields the `n` singletons. -/
theorem C2_enumerator_complete_ordered (logs : List LogRecord) (n k : Nat)
    (dflt : LogRecord) (hn : logs.length = n) (hk1 : 1 ≤ k) (hkn : k ≤ n) :
    enumeratorContract logs n k dflt := by
  subst hn
  refine ⟨fun ys => mem_combinations, by rw [length_combinations],
    nodup_combinations, ?_, pairwise_lex_combinations (List.sorted_lt_range _),
    combinations_length_self logs, combinations_one logs,
    by simp [combinations_one]⟩
  conv_lhs => rw [← map_getD_range dflt logs]
  rw [combinations_map]

/-- C3: `area_of` is the cell count (unit cell area 1), `best_day_area` is
the maximum individual area, and `max_area_file` is the filename of the
first log in input order attaining it; the two-cell log on a coarseness-4
grid has area 2. -/
theorem C3_best_day_area {logs : List LogRecord} {k : Nat} {r : ProcessResult}
    (e : processFeedback logs k = .ok r) :
    (∀ l, area_of l = l.cells.card) ∧
    (∀ l ∈ logs, area_of l ≤ r.best_day_area) ∧
    (∃ pre b post, logs = pre ++ b :: post ∧ area_of b = r.best_day_area ∧
      r.max_area_file = b.filename ∧ ∀ l ∈ pre, area_of l < r.best_day_area) ∧
    area_of ⟨"S", "two.json", "body.svg", 4, {(0, 0), (0, 1)}⟩ = 2 := by
  obtain ⟨l0, rest, c0, cs, hlogs, hv, hcc, hst, hbda, hmax, hsoa, hsc, hbc⟩ :=
    processFeedback_ok_fields e
  subst hlogs
  obtain ⟨pre, post, heq, hpre, hall⟩ := firstMax_spec area_of l0 rest
  refine ⟨fun l => rfl, ?_, ⟨pre, _, post, heq, hbda.symm, hmax, ?_⟩, by decide⟩
  · intro l hl
    rw [hbda]
    exact hall l hl
  · intro l hl
    rw [hbda]
    exact hpre l hl

/-- C4: a valid batch in which every log marked no cells is not an error:
the engine returns `status = "ok"`, `stability_score = 0` and an empty
`best_combination`; `best_day_area = 0` certifies that the guarded division
branch is never taken. -/
theorem C4_all_empty_safe {logs : List LogRecord} {k : Nat}
    (h : validBatch logs k) (hempty : ∀ l ∈ logs, l.cells = ∅) :
    ∃ r, processFeedback logs k = .ok r ∧ r.status = "ok" ∧
      r.best_day_area = 0 ∧ r.stability_score = 0 ∧ r.best_combination = [] := by
  obtain ⟨l0, rest, rfl⟩ := validBatch_cons h
  obtain ⟨r, hr⟩ := processFeedback_ok_exists h
  obtain ⟨l0', rest', c0, cs, hlogs, hv, hcc, hst, hbda, hmax, hsoa, hsc, hbc⟩ :=
    processFeedback_ok_fields hr
  injection hlogs with h1 h2
  subst h1; subst h2
  have hz : r.best_day_area = 0 := by
    rw [hbda, area_of, hempty _ (firstMax_mem area_of l0 rest)]
    rfl
  exact ⟨r, hr, hst, hz, by rw [hsc, if_pos hz], by rw [hbc, if_pos hz]⟩

/-- C5: an empty selection, `k` outside `[1, n]`, a mismatch of `image_path`
or `coarseness` between two selected logs, or an out-of-range coordinate
each make the engine reject the whole request with an error: no clamping,
no dropped log, no partial result. -/
theorem C5_validation_rejects (logs : List LogRecord) (k : Nat)
    (h : logs = [] ∨ k < 1 ∨ logs.length < k ∨
      (∃ l ∈ logs, ∃ l' ∈ logs,
        l.image_path ≠ l'.image_path ∨ l.coarseness ≠ l'.coarseness) ∨
      (∃ l ∈ logs, ∃ c ∈ l.cells, l.coarseness ≤ c.1 ∨ l.coarseness ≤ c.2)) :
    isErrorResult (processFeedback logs k) = true := by
  have hnv : ¬ validBatch logs k := by
    rintro ⟨h1, h2, h3, h4, h5⟩
    rcases h with rfl | hk | hk | ⟨l, hl, l', hl', hml⟩ | ⟨l, hl, c, hc, hoc⟩
    · simp at h1
    · omega
    · omega
    · rcases hml with hip | hco
      · exact hip (h4 l hl l' hl').1
      · exact hco (h4 l hl l' hl').2
    · rcases hoc with hx | hx
      · have := (h5 l hl c hc).1; omega
      · have := (h5 l hl c hc).2; omega
  cases logs with
  | nil => rfl
  | cons l0 rest =>
    rw [processFeedback.eq_def]
    simp only [if_neg hnv]
    rfl

/-- C6: on every valid batch the engine succeeds with
`0 ≤ stability_score ≤ 1` and non-negative areas. -/
theorem C6_score_bounds {logs : List LogRecord} {k : Nat}
    (h : validBatch logs k) :
    ∃ r, processFeedback logs k = .ok r ∧
      0 ≤ r.stability_score ∧ r.stability_score ≤ 1 ∧
      0 ≤ (r.stable_overlap_area : ℚ) ∧ 0 ≤ (r.best_day_area : ℚ) := by
  obtain ⟨l0, rest, rfl⟩ := validBatch_cons h
  obtain ⟨r, hr⟩ := processFeedback_ok_exists h
  obtain ⟨l0', rest', c0, cs, hlogs, hv, hcc, hst, hbda, hmax, hsoa, hsc, hbc⟩ :=
    processFeedback_ok_fields hr
  injection hlogs with h1 h2
  subst h1; subst h2
  have hkey : r.stable_overlap_area ≤ r.best_day_area := by
    rw [hsoa, hbda]
    have hmem : firstMax overlap_area c0 cs ∈ c0 :: cs := firstMax_mem _ _ _
    rw [← hcc] at hmem
    obtain ⟨hsub, hlen⟩ := mem_combinations.mp hmem
    have hk1 : 1 ≤ k := hv.2.1
    have hne : firstMax overlap_area c0 cs ≠ [] := by
      intro hnil
      rw [hnil] at hlen
      simp at hlen
      omega
    obtain ⟨m, ms, hm⟩ := List.exists_cons_of_ne_nil hne
    rw [hm]
    have hstep : overlap_area (m :: ms) ≤ area_of m :=
      Finset.card_le_card (overlap_cells_subset_head m ms)
    refine hstep.trans ?_
    obtain ⟨pre, post, heq, hpre, hall⟩ := firstMax_spec area_of l0 rest
    apply hall
    rw [hm] at hsub
    exact hsub.subset (List.mem_cons_self m ms)
  refine ⟨r, hr, ?_, ?_, Nat.cast_nonneg _, Nat.cast_nonneg _⟩
  · rw [hsc]
    split
    · exact le_refl 0
    · exact div_nonneg (Nat.cast_nonneg _) (Nat.cast_nonneg _)
  · rw [hsc]
    split
    case isTrue => norm_num
    case isFalse hz =>
      have hpos : (0 : ℚ) < (r.best_day_area : ℚ) := by
        exact_mod_cast Nat.pos_of_ne_zero hz
      rw [div_le_one hpos]
      exact_mod_cast hkey

/-- C7 amended: for every valid batch with `k = 1`,
`stable_overlap_area = best_day_area`, and `stability_score = 1` whenever
`best_day_area > 0`; when `best_day_area = 0` (all-empty batch) the score is
`0`, not `1`. -/
theorem C7_k1_amended {logs : List LogRecord} (h : validBatch logs 1) :
    ∃ r, processFeedback logs 1 = .ok r ∧
      r.stable_overlap_area = r.best_day_area ∧
      (r.best_day_area ≠ 0 → r.stability_score = 1) ∧
      (r.best_day_area = 0 → r.stability_score = 0) := by
  obtain ⟨l0, rest, rfl⟩ := validBatch_cons h
  obtain ⟨r, hr⟩ := processFeedback_ok_exists h
  obtain ⟨l0', rest', c0, cs, hlogs, hv, hcc, hst, hbda, hmax, hsoa, hsc, hbc⟩ :=
    processFeedback_ok_fields hr
  injection hlogs with h1 h2
  subst h1; subst h2
  have hco : combinations 1 (l0 :: rest) = [l0] :: rest.map (fun a => [a]) := by
    rw [combinations_one, List.map_cons]
  rw [hco] at hcc
  injection hcc with hc0 hcs
  have hbest : firstMax overlap_area c0 cs = [firstMax area_of l0 rest] := by
    subst hc0; subst hcs
    exact firstMax_map (fun a => [a]) overlap_area area_of (fun a => rfl) l0 rest
  have heqarea : r.stable_overlap_area = r.best_day_area := by
    rw [hsoa, hbest, overlap_area_singleton, hbda]
  refine ⟨r, hr, heqarea, ?_, ?_⟩
  · intro hz
    rw [hsc, if_neg hz, heqarea, div_self]
    exact_mod_cast hz
  · intro hz
    rw [hsc, if_pos hz]

/-- C7 counterexample: the claim as stated fails on the valid all-empty
single-log batch with `k = 1`: the engine returns `stability_score = 0`,
not `1.0`. -/
theorem C7_counterexample :
    processFeedback [emptyLog] 1 = .ok emptyResult ∧
    emptyResult.stability_score ≠ 1 := by
  refine ⟨rfl, ?_⟩
  simp [emptyResult]

/-- C8: for a fixed batch, the maximal overlap area is non-increasing in
`k`: intersecting more sets cannot grow the intersection. -/
theorem C8_overlap_monotone {logs : List LogRecord} {k1 k2 : Nat}
    (hk : k1 ≤ k2) {r1 r2 : ProcessResult}
    (e1 : processFeedback logs k1 = .ok r1)
    (e2 : processFeedback logs k2 = .ok r2) :
    r2.stable_overlap_area ≤ r1.stable_overlap_area := by
  obtain ⟨l0, rest, c0, cs, hlogs, hv1, hcc1, -, -, -, hsoa1, -, -⟩ :=
    processFeedback_ok_fields e1
  subst hlogs
  obtain ⟨l0', rest', d0, ds, hlogs', hv2, hcc2, -, -, -, hsoa2, -, -⟩ :=
    processFeedback_ok_fields e2
  injection hlogs' with h1 h2
  subst h1; subst h2
  have hmem2 : firstMax overlap_area d0 ds ∈ d0 :: ds := firstMax_mem _ _ _
  rw [← hcc2] at hmem2
  obtain ⟨hsub2, hlen2⟩ := mem_combinations.mp hmem2
  have hk1 : 1 ≤ k1 := hv1.2.1
  have hlen1 : ((firstMax overlap_area d0 ds).take k1).length = k1 := by
    rw [List.length_take, hlen2]
    omega
  have hne1 : (firstMax overlap_area d0 ds).take k1 ≠ [] := by
    intro hnil
    rw [hnil] at hlen1
    simp at hlen1
    omega
  have htake : ((firstMax overlap_area d0 ds).take k1).Sublist (firstMax overlap_area d0 ds) :=
    List.take_sublist _ _
  have hmem1 : (firstMax overlap_area d0 ds).take k1 ∈ combinations k1 (l0 :: rest) :=
    mem_combinations.mpr ⟨htake.trans hsub2, hlen1⟩
  have hstep1 : overlap_area (firstMax overlap_area d0 ds)
      ≤ overlap_area ((firstMax overlap_area d0 ds).take k1) :=
    Finset.card_le_card (overlap_cells_anti hne1 htake)
  have hstep2 : overlap_area ((firstMax overlap_area d0 ds).take k1)
      ≤ overlap_area (firstMax overlap_area c0 cs) := by
    obtain ⟨pre, post, heq, hpre, hall⟩ := firstMax_spec overlap_area c0 cs
    apply hall
    rw [← hcc1]
    exact hmem1
  rw [hsoa1, hsoa2]
  exact hstep1.trans hstep2

/-! ## Frontend lemmas -/

/-- Splitting never produces an empty list of segments, so `pop()` never
yields `undefined`. -/
theorem splitSep_ne_nil (l : JSStr) : splitSep l ≠ [] := by
  cases l with
  | nil => simp [splitSep]
  | cons c cs =>
    simp only [splitSep]
    split
    · simp
    · split <;> simp

/-- Splitting around a separator concatenates the two splits. -/
theorem splitSep_append {c : Char} (hc : isSep c = true) (xs ys : JSStr) :
    splitSep (xs ++ c :: ys) = splitSep xs ++ splitSep ys := by
  induction xs with
  | nil =>
    simp only [List.nil_append, splitSep, hc, if_true]
    rfl
  | cons x xs ih =>
    simp only [List.cons_append, splitSep, List.append_eq]
    by_cases hx : isSep x
    · rw [if_pos hx, if_pos hx, ih]
      rfl
    · rw [if_neg hx, if_neg hx, ih]
      obtain ⟨s, ss, hs⟩ := List.exists_cons_of_ne_nil (splitSep_ne_nil xs)
      rw [hs, List.cons_append]
      rfl

/-- A separator-free string splits into the single segment it is. -/
theorem splitSep_no_sep {n : JSStr} (h : ∀ c ∈ n, isSep c = false) :
    splitSep n = [n] := by
  induction n with
  | nil => rfl
  | cons c cs ih =>
    have hc := h c (List.mem_cons_self c cs)
    simp only [splitSep]
    rw [if_neg (by simp [hc]), ih (fun d hd => h d (List.mem_cons_of_mem _ hd))]

/-- The basename of a path is its final separator-free segment, regardless of
the directory part. -/
theorem baseName_append_sep {c : Char} (hc : isSep c = true) (d : JSStr)
    {n : JSStr} (hn : ∀ ch ∈ n, isSep ch = false) :
    baseName (d ++ c :: n) = n := by
  rw [baseName, splitSep_append hc, splitSep_no_sep hn, List.getLast?_concat]
  rfl

/-- C9: the marking UI renders `FeedbackLocator` only with the constant
`coarseness={80}` — in both page variants — so every exported log was marked
on an 80×80 grid and any batch of such logs satisfies the equal-coarseness
precondition. -/
theorem C9_coarseness_80 (customSvg : Option String) (p : FeedbackLocatorProps)
    (h : markSensationsLocator customSvg = some p ∨ appLocator customSvg = some p) :
    p.coarseness = 80 := by
  cases customSvg with
  | none => rcases h with h | h <;> simp [markSensationsLocator, appLocator] at h
  | some svg =>
    rcases h with h | h
    · simp only [markSensationsLocator] at h
      injection h with h
      rw [← h]
    · simp only [appLocator] at h
      injection h with h
      rw [← h]

/-- C10: `exportFeedbackLog` sets both the top-level `filename` and
`feedbackLocation.image_path` to the basename of the selected image name
(the last segment after splitting on `/` or `\`), so identically named
images from different directories yield the same `image_path`. -/
theorem C10_basename_export (logId d1 d2 : JSStr) {n : JSStr} (c1 c2 : Char)
    (h1 : isSep c1 = true) (h2 : isSep c2 = true)
    (hn : ∀ ch ∈ n, isSep ch = false) :
    (∀ sel svg : Option JSStr,
      (exportFeedbackLog logId sel svg).filename
        = (exportFeedbackLog logId sel svg).image_path ∧
      (exportFeedbackLog logId sel svg).image_path
        = baseName (sel.getD (svg.getD []))) ∧
    baseName (d1 ++ c1 :: n) = n ∧
    baseName (d1 ++ c1 :: n) = baseName (d2 ++ c2 :: n) := by
  refine ⟨fun sel svg => ⟨rfl, rfl⟩, baseName_append_sep h1 d1 hn, ?_⟩
  rw [baseName_append_sep h1 d1 hn, baseName_append_sep h2 d2 hn]

/-! ## Witnesses -/

/-- Witness for C1 at the spec §8 example batch with `k = 2`. -/
theorem C1_witness :
    processFeedback exLogs 2 = .ok exResult ∧
    ((∃ pre best post, combinations 2 exLogs = pre ++ best :: post ∧
        exResult.stable_overlap_area = overlap_area best ∧
        (exResult.best_day_area ≠ 0 →
          exResult.best_combination = best.map (fun l => l.filename)) ∧
        (∀ s ∈ pre, overlap_area s < overlap_area best) ∧
        (∀ s ∈ combinations 2 exLogs, overlap_area s ≤ overlap_area best)) ∧
      processFeedback exLogs 2 = .ok exResult) :=
  ⟨example_eval_k2, C1_selector_first_max example_eval_k2⟩

/-- Witness for C2 at the spec §8 example batch, `n = 3`, `k = 2`. -/
theorem C2_witness :
    exLogs.length = 3 ∧ 1 ≤ 2 ∧ 2 ≤ 3 ∧ enumeratorContract exLogs 3 2 exLog1 :=
  ⟨rfl, by omega, by omega,
    C2_enumerator_complete_ordered exLogs 3 2 exLog1 rfl (by omega) (by omega)⟩

/-- Witness for C3 at the spec §8 example batch with `k = 2`. -/
theorem C3_witness :
    processFeedback exLogs 2 = .ok exResult ∧
    ((∀ l, area_of l = l.cells.card) ∧
      (∀ l ∈ exLogs, area_of l ≤ exResult.best_day_area) ∧
      (∃ pre b post, exLogs = pre ++ b :: post ∧
        area_of b = exResult.best_day_area ∧
        exResult.max_area_file = b.filename ∧
        ∀ l ∈ pre, area_of l < exResult.best_day_area) ∧
      area_of ⟨"S", "two.json", "body.svg", 4, {(0, 0), (0, 1)}⟩ = 2) :=
  ⟨example_eval_k2, C3_best_day_area example_eval_k2⟩

/-- Witness for C4 at the all-empty single-log batch with `k = 1`. -/
theorem C4_witness :
    validBatch [emptyLog] 1 ∧ (∀ l ∈ [emptyLog], l.cells = ∅) ∧
    (∃ r, processFeedback [emptyLog] 1 = .ok r ∧ r.status = "ok" ∧
      r.best_day_area = 0 ∧ r.stability_score = 0 ∧ r.best_combination = []) :=
  ⟨by decide, by decide, C4_all_empty_safe (by decide) (by decide)⟩

/-- Witness for C5 at the empty selection. -/
theorem C5_witness :
    (([] : List LogRecord) = [] ∨ 2 < 1 ∨ ([] : List LogRecord).length < 2 ∨
      (∃ l ∈ ([] : List LogRecord), ∃ l' ∈ ([] : List LogRecord),
        l.image_path ≠ l'.image_path ∨ l.coarseness ≠ l'.coarseness) ∨
      (∃ l ∈ ([] : List LogRecord), ∃ c ∈ l.cells,
        l.coarseness ≤ c.1 ∨ l.coarseness ≤ c.2)) ∧
    isErrorResult (processFeedback [] 2) = true :=
  ⟨Or.inl rfl, C5_validation_rejects [] 2 (Or.inl rfl)⟩

/-- Witness for C6 at the spec §8 example batch with `k = 2`. -/
theorem C6_witness :
    validBatch exLogs 2 ∧
    (∃ r, processFeedback exLogs 2 = .ok r ∧
      0 ≤ r.stability_score ∧ r.stability_score ≤ 1 ∧
      0 ≤ (r.stable_overlap_area : ℚ) ∧ 0 ≤ (r.best_day_area : ℚ)) :=
  ⟨by decide, C6_score_bounds (by decide)⟩

/-- Witness for the amended C7 at the spec §8 example batch with `k = 1`. -/
theorem C7_witness :
    validBatch exLogs 1 ∧
    (∃ r, processFeedback exLogs 1 = .ok r ∧
      r.stable_overlap_area = r.best_day_area ∧
      (r.best_day_area ≠ 0 → r.stability_score = 1) ∧
      (r.best_day_area = 0 → r.stability_score = 0)) :=
  ⟨by decide, C7_k1_amended (by decide)⟩

/-- Witness for C8 at the spec §8 example batch with `k1 = 1`, `k2 = 2`. -/
theorem C8_witness :
    1 ≤ 2 ∧ processFeedback exLogs 1 = .ok exResult1 ∧
    processFeedback exLogs 2 = .ok exResult ∧
    exResult.stable_overlap_area ≤ exResult1.stable_overlap_area :=
  ⟨by omega, example_eval_k1, example_eval_k2,
    C8_overlap_monotone (by omega) example_eval_k1 example_eval_k2⟩

/-- Witness for C9 at a concrete selected image. -/
theorem C9_witness :
    (markSensationsLocator (some "body.svg") = some ⟨"body.svg", 80⟩ ∨
      appLocator (some "body.svg") = some ⟨"body.svg", 80⟩) ∧
    (⟨"body.svg", 80⟩ : FeedbackLocatorProps).coarseness = 80 :=
  ⟨Or.inl rfl,
    C9_coarseness_80 (some "body.svg") ⟨"body.svg", 80⟩ (Or.inl rfl)⟩

/-- Witness for C10 at two directories holding an identically named image. -/
theorem C10_witness :
    isSep '/' = true ∧ isSep '\\' = true ∧
    (∀ ch ∈ "img.svg".data, isSep ch = false) ∧
    ((∀ sel svg : Option JSStr,
        (exportFeedbackLog "S1".data sel svg).filename
          = (exportFeedbackLog "S1".data sel svg).image_path ∧
        (exportFeedbackLog "S1".data sel svg).image_path
          = baseName (sel.getD (svg.getD []))) ∧
      baseName ("dirA".data ++ '/' :: "img.svg".data) = "img.svg".data ∧
      baseName ("dirA".data ++ '/' :: "img.svg".data)
        = baseName ("dirB".data ++ '\\' :: "img.svg".data)) :=
  ⟨rfl, rfl, by decide,
    C10_basename_export "S1".data "dirA".data "dirB".data '/' '\\' rfl rfl (by decide)⟩

end Felt
